import Mathlib

/-!
Verification of the geofib COGO / Vincenty / fiber-design core.

This file gives a shallow embedding of the relevant parts of `cogo.py`,
`vincenty.py` and `design.py`, and proves (or refutes) the frozen claims
about them.

Modelling conventions:
* Python floats are idealised as exact rationals (`ℚ`).  Claims whose content
  is floating-point rounding or transcendental iteration are out of scope of
  the embedding.
* The numeric kernel of Vincenty's direct formula
  (`vincenty.position_from_rangebearing`) is a fixed-point iteration over
  float trigonometry.  The structural traverse claims hold for *every*
  possible kernel, so the traverse model is parameterised by an arbitrary
  kernel `geo : Geo`; the theorems quantify over it.
* Python exceptions are modelled with `Except`; the error kind records which
  exception class was raised (`ParseError`, `AssertionError` from `assert`,
  `ValueError`, ...).
* `Traverse.comments` and `Traverse.name` (pure logging / labelling state,
  never read by the modelled operations) are omitted from the state.
-/

/-- Type of an abstract direct-geodesic kernel standing for the numeric body
of `vincenty.position_from_rangebearing`: arguments latitude, longitude,
azimuth (decimal degrees) and distance in meters; result
`(latitude2, longitude2, reverse_azimuth)`. -/
def Geo : Type := ℚ → ℚ → ℚ → ℚ → ℚ × ℚ × ℚ

/-- `cogo.Position`: a geographic point, latitude/longitude in decimal
degrees (`cogo.py` lines 25-50). -/
structure Position where
  latitude : ℚ
  longitude : ℚ
deriving DecidableEq

/-- `Position.FEET_METERS_FACTOR` (`cogo.py` line 26). -/
def Position.FEET_METERS_FACTOR : ℚ := 3.2808398950131

/-- `Position.DEGREES_FEET_FACTOR` (`cogo.py` line 27). -/
def Position.DEGREES_FEET_FACTOR : ℚ := 1 / 6074 / 60

/-- `Position.copy` (`cogo.py` lines 33-34).  In the value model a copy is
the value itself; the reference model used for the aliasing claim is below. -/
def Position.copy (p : Position) : Position :=
  ⟨p.latitude, p.longitude⟩

/-- `Position.displace` (`cogo.py` lines 43-45): feet→meters conversion and
delegation to the direct geodesic solution (the kernel `geo`). -/
def Position.displace (geo : Geo) (p : Position) (range_in_feet azimuth : ℚ) : Position :=
  let range_in_meters := range_in_feet / Position.FEET_METERS_FACTOR
  let r := geo p.latitude p.longitude azimuth range_in_meters
  ⟨r.1, r.2.1⟩

/-- Exception kinds raised by the `cogo.py` code paths modelled here. -/
inductive CogoErr
  | parseError
  | assertionError
  | valueError
deriving DecidableEq

/-- `cogo.Traverse` mutable state (`cogo.py` lines 67-74); the comment log
and name are omitted (pure logging). -/
structure Traverse where
  points : List Position
  rangeazimuths : List (ℚ × ℚ)
  cursor : Position
  last_azimuth : Option ℚ
  basis_adjustment : ℚ
deriving DecidableEq

/-- `Traverse.__init__` (`cogo.py` lines 67-74). -/
def Traverse.mk0 (initial_position : Position) : Traverse :=
  { points := [], rangeazimuths := [], cursor := initial_position,
    last_azimuth := none, basis_adjustment := 0 }

/-- `Traverse.begin` (`cogo.py` lines 81-86): raises `ParseError` when
already begun, otherwise records a copy of the cursor. -/
def Traverse.begin (t : Traverse) : Except CogoErr Traverse :=
  if t.points = [] then
    .ok { t with points := t.points ++ [t.cursor.copy] }
  else
    .error .parseError

/-- `Traverse.thence_to` (`cogo.py` lines 88-95): adds the basis adjustment
to the azimuth, displaces the cursor, remembers the (adjusted) azimuth, and
when begun appends a copy of the new cursor and the edge record. -/
def Traverse.thence_to (geo : Geo) (t : Traverse) (range_in_feet azimuth0 : ℚ) : Traverse :=
  let azimuth := azimuth0 + t.basis_adjustment
  let cursor := t.cursor.displace geo range_in_feet azimuth
  if t.points = [] then
    { t with cursor := cursor, last_azimuth := some azimuth }
  else
    { t with cursor := cursor, last_azimuth := some azimuth,
             points := t.points ++ [cursor.copy],
             rangeazimuths := t.rangeazimuths ++ [(range_in_feet, azimuth)] }

/-- `Traverse.thence_chord` (`cogo.py` lines 97-105): raises `ParseError`
when no previous azimuth exists; otherwise one `thence_to` at
`last_azimuth + delta/2` followed by resetting the tracked tangent azimuth
to `last_azimuth + delta`. -/
def Traverse.thence_chord (geo : Geo) (t : Traverse) (range_in_feet delta_azimuth : ℚ) :
    Except CogoErr Traverse :=
  match t.last_azimuth with
  | none => .error .parseError
  | some last_azimuth =>
    let t2 := t.thence_to geo range_in_feet (last_azimuth + delta_azimuth / 2)
    .ok { t2 with last_azimuth := some (last_azimuth + delta_azimuth) }

/-- One element of the Python list returned by `Traverse.as_polygon`: either
a `Position`, or the Python empty-list object that line 129 of `cogo.py`
binds to `closure` when the traverse closes exactly. -/
inductive PolyElem
  | pos (p : Position)
  | emptyList
deriving DecidableEq

/-- `Traverse.as_polygon` (`cogo.py` lines 119-130).  Note the faithful
translation of line 129-130: `closure` is either the Python empty list or a
copy of the first point, and it is appended as a single element in both
cases. -/
def Traverse.as_polygon (t : Traverse) : Except CogoErr (List PolyElem) :=
  if t.points.length < 3 then .error .parseError
  else if t.points.length ≠ t.rangeazimuths.length + 1 then .error .assertionError
  else
    match t.points.head?, t.points.getLast? with
    | some h, some l =>
      let closure := if h = l then PolyElem.emptyList else PolyElem.pos h.copy
      .ok ((t.points.map fun p => PolyElem.pos p.copy) ++ [closure])
    | _, _ => .error .assertionError

/-- The traverse instructions the invariant claims quantify over. -/
inductive Instr
  | begin
  | thenceTo (range_in_feet azimuth : ℚ)
  | thenceChord (range_in_feet delta_azimuth : ℚ)
deriving DecidableEq

/-- Execute one instruction on a traverse. -/
def Traverse.step (geo : Geo) (t : Traverse) : Instr → Except CogoErr Traverse
  | .begin => t.begin
  | .thenceTo r az => .ok (t.thence_to geo r az)
  | .thenceChord r d => t.thence_chord geo r d

/-- Execute a sequence of instructions, stopping at the first raised error. -/
def Traverse.run (geo : Geo) : Traverse → List Instr → Except CogoErr Traverse
  | t, [] => .ok t
  | t, i :: rest =>
    match t.step geo i with
    | .error e => .error e
    | .ok t2 => t2.run geo rest

deriving instance DecidableEq for Except

/-- Behaviour of `thence_to` before the traverse has begun: nothing is
recorded, only the cursor and tracked azimuth change. -/
theorem Traverse.thence_to_eq_of_empty (geo : Geo) (t : Traverse) (r az : ℚ)
    (h : t.points = []) :
    t.thence_to geo r az =
      { t with cursor := t.cursor.displace geo r (az + t.basis_adjustment),
               last_azimuth := some (az + t.basis_adjustment) } := by
  simp [Traverse.thence_to, h]

/-- Behaviour of `thence_to` once begun: it appends exactly one point and one
edge record. -/
theorem Traverse.thence_to_eq_of_nonempty (geo : Geo) (t : Traverse) (r az : ℚ)
    (h : t.points ≠ []) :
    t.thence_to geo r az =
      { t with cursor := t.cursor.displace geo r (az + t.basis_adjustment),
               last_azimuth := some (az + t.basis_adjustment),
               points := t.points ++ [(t.cursor.displace geo r (az + t.basis_adjustment)).copy],
               rangeazimuths := t.rangeazimuths ++ [(r, az + t.basis_adjustment)] } := by
  simp [Traverse.thence_to, h]

/-- The `points`/`rangeazimuths` shape invariant of a traverse: either unbegun
(both empty) or begun (points one longer than the edge list). -/
def Traverse.lenInv (t : Traverse) : Prop :=
  (t.points = [] ∧ t.rangeazimuths = []) ∨
    t.points.length = t.rangeazimuths.length + 1

theorem Traverse.thence_to_preserves_lenInv (geo : Geo) (t : Traverse) (r az : ℚ)
    (hinv : t.lenInv) : (t.thence_to geo r az).lenInv := by
  by_cases hemp : t.points = []
  · rw [Traverse.thence_to_eq_of_empty geo t r az hemp]
    rcases hinv with ⟨h1, h2⟩ | hlen
    · left; exact ⟨hemp, h2⟩
    · rw [hemp] at hlen; simp at hlen
  · rw [Traverse.thence_to_eq_of_nonempty geo t r az hemp]
    rcases hinv with ⟨h1, h2⟩ | hlen
    · exact absurd h1 hemp
    · right; simp [hlen]

theorem Traverse.step_preserves_lenInv (geo : Geo) (t t2 : Traverse) (i : Instr)
    (hinv : t.lenInv) (h : t.step geo i = .ok t2) : t2.lenInv := by
  cases i with
  | begin =>
    simp only [Traverse.step, Traverse.begin] at h
    split at h
    · rename_i hemp
      rcases hinv with ⟨h1, h2⟩ | hlen
      · cases h
        right
        simp [hemp, h2]
      · rw [hemp] at hlen
        simp at hlen
    · cases h
  | thenceTo r az =>
    simp only [Traverse.step] at h
    cases h
    exact Traverse.thence_to_preserves_lenInv geo t r az hinv
  | thenceChord r d =>
    simp only [Traverse.step, Traverse.thence_chord] at h
    cases hla : t.last_azimuth with
    | none => rw [hla] at h; cases h
    | some la =>
      rw [hla] at h
      cases h
      have h2 : (t.thence_to geo r (la + d / 2)).lenInv :=
        Traverse.thence_to_preserves_lenInv geo t _ _ hinv
      rcases h2 with ⟨h1, h2⟩ | hlen
      · left; exact ⟨h1, h2⟩
      · right; exact hlen

theorem Traverse.run_preserves_lenInv (geo : Geo) (instrs : List Instr) :
    ∀ (t t' : Traverse), t.lenInv → t.run geo instrs = .ok t' → t'.lenInv := by
  induction instrs with
  | nil =>
    intro t t' hinv h
    simp only [Traverse.run] at h
    cases h
    exact hinv
  | cons i rest ih =>
    intro t t' hinv h
    simp only [Traverse.run] at h
    cases hstep : t.step geo i with
    | error e => rw [hstep] at h; cases h
    | ok t2 =>
      rw [hstep] at h
      exact ih t2 t' (Traverse.step_preserves_lenInv geo t t2 i hinv hstep) h

/-- C4: any instruction sequence run from a fresh traverse leaves it either
unbegun (no points, no edges) or begun with exactly one more point than edge
record; before `begin`, `thence_to` records nothing (it only moves the
cursor), and once begun every `thence_to` appends exactly one point and one
edge record. -/
theorem c4_traverse_length_invariant (geo : Geo) (p : Position) (instrs : List Instr)
    (t' : Traverse) (h : Traverse.run geo (Traverse.mk0 p) instrs = .ok t') :
    ((t'.points = [] ∧ t'.rangeazimuths = []) ∨
      t'.points.length = t'.rangeazimuths.length + 1) ∧
    (∀ (t : Traverse) (r az : ℚ), t.points = [] →
      (t.thence_to geo r az).points = [] ∧
      (t.thence_to geo r az).rangeazimuths = t.rangeazimuths) ∧
    (∀ (t : Traverse) (r az : ℚ), t.points ≠ [] →
      (t.thence_to geo r az).points.length = t.points.length + 1 ∧
      (t.thence_to geo r az).rangeazimuths.length = t.rangeazimuths.length + 1) := by
  refine ⟨?_, ?_, ?_⟩
  · have h0 : (Traverse.mk0 p).lenInv := by
      left; simp [Traverse.mk0]
    exact Traverse.run_preserves_lenInv geo instrs _ t' h0 h
  · intro t r az hemp
    rw [Traverse.thence_to_eq_of_empty geo t r az hemp]
    exact ⟨hemp, rfl⟩
  · intro t r az hne
    rw [Traverse.thence_to_eq_of_nonempty geo t r az hne]
    simp

/-- Concrete geodesic kernel used by witnesses: the resulting latitude
records the bearing that was used, the longitude is reset to zero. -/
def geoAz : Geo := fun _ _ az _ => (az, 0, 0)

/-- Concrete kernel used by witnesses: moves one degree north per call. -/
def geoNorth : Geo := fun lat lon _ _ => (lat + 1, lon, 0)

/-- The concrete traverse state after the witness run for C4. -/
def c4tW : Traverse :=
  { points := [⟨1, 0⟩, ⟨2, 0⟩], rangeazimuths := [(5, 30)], cursor := ⟨2, 0⟩,
    last_azimuth := some 30, basis_adjustment := 0 }

theorem c4_traverse_length_invariant_witness :
    (Traverse.run geoNorth (Traverse.mk0 ⟨0, 0⟩) [.thenceTo 10 20, .begin, .thenceTo 5 30] =
      .ok c4tW) ∧
    ((c4tW.points = [] ∧ c4tW.rangeazimuths = []) ∨
      c4tW.points.length = c4tW.rangeazimuths.length + 1) := by
  have hrun : Traverse.run geoNorth (Traverse.mk0 ⟨0, 0⟩)
      [.thenceTo 10 20, .begin, .thenceTo 5 30] = .ok c4tW := by
    norm_num [Traverse.run, Traverse.step, Traverse.thence_to, Traverse.begin,
      Position.displace, Position.copy, Traverse.mk0, geoNorth, c4tW]
  exact ⟨hrun, (c4_traverse_length_invariant geoNorth ⟨0, 0⟩ _ _ hrun).1⟩

/-- C5 (amended): `thence_chord` raises exactly when no prior azimuth exists;
otherwise it displaces the cursor along a single chord whose bearing is
`last_azimuth + delta/2 + basis_adjustment` (the basis adjustment is applied
a second time because the chord bearing is routed through `thence_to`), and
afterwards the tracked tangent azimuth is `last_azimuth + delta`. -/
theorem c5_thence_chord_behaviour (geo : Geo) (t : Traverse) (r d : ℚ) :
    (t.last_azimuth = none → t.thence_chord geo r d = .error .parseError) ∧
    (∀ la : ℚ, t.last_azimuth = some la →
      ∃ t2 : Traverse, t.thence_chord geo r d = .ok t2 ∧
        t2.cursor = t.cursor.displace geo r (la + d / 2 + t.basis_adjustment) ∧
        t2.last_azimuth = some (la + d) ∧
        t2.points = (t.thence_to geo r (la + d / 2)).points ∧
        t2.rangeazimuths = (t.thence_to geo r (la + d / 2)).rangeazimuths) := by
  constructor
  · intro hla
    simp [Traverse.thence_chord, hla]
  · intro la hla
    refine ⟨{ t.thence_to geo r (la + d / 2) with last_azimuth := some (la + d) },
      by simp [Traverse.thence_chord, hla], ?_, rfl, rfl, rfl⟩
    show (t.thence_to geo r (la + d / 2)).cursor = _
    by_cases hemp : t.points = []
    · rw [Traverse.thence_to_eq_of_empty geo t r (la + d / 2) hemp]
    · rw [Traverse.thence_to_eq_of_nonempty geo t r (la + d / 2) hemp]

/-- Concrete traverse with a nonzero basis adjustment, used to refute C5 as
stated and to witness the amended C5. -/
def c5t : Traverse :=
  { points := [⟨0, 0⟩], rangeazimuths := [], cursor := ⟨0, 0⟩,
    last_azimuth := some 50, basis_adjustment := 10 }

/-- C5 counterexample: with `basis_adjustment = 10`, `last_azimuth = 50` and
`delta = 20`, the chord displaces the cursor at bearing 70
(= 50 + 20/2 + 10), not at the claimed `lastAzimuth + delta/2 = 60`: under
the kernel `geoAz` (which records the bearing as the resulting latitude) the
actual cursor is `(70, 0)` while the claimed bearing would give `(60, 0)`. -/
theorem c5_counterexample :
    (c5t.thence_chord geoAz 100 20).map Traverse.cursor = .ok ⟨70, 0⟩ ∧
    Position.displace geoAz c5t.cursor 100 (50 + 20 / 2) = ⟨60, 0⟩ ∧
    (Position.mk 70 0 ≠ Position.mk 60 0) := by
  refine ⟨?_, ?_, by decide⟩
  · norm_num [Traverse.thence_chord, Traverse.thence_to, Position.displace,
      Position.copy, c5t, geoAz, Except.map]
  · norm_num [Position.displace, c5t, geoAz]

theorem c5_thence_chord_behaviour_witness :
    c5t.last_azimuth = some 50 ∧
    ∃ t2 : Traverse, c5t.thence_chord geoAz 100 20 = .ok t2 ∧
      t2.cursor = c5t.cursor.displace geoAz 100 (50 + 20 / 2 + c5t.basis_adjustment) ∧
      t2.last_azimuth = some (50 + 20) ∧
      t2.points = (c5t.thence_to geoAz 100 (50 + 20 / 2)).points ∧
      t2.rangeazimuths = (c5t.thence_to geoAz 100 (50 + 20 / 2)).rangeazimuths :=
  ⟨rfl, (c5_thence_chord_behaviour geoAz c5t 100 20).2 50 rfl⟩

/-- Concrete exactly-closed traverse (first point equals last point). -/
def c1closed : Traverse :=
  { points := [⟨0, 0⟩, ⟨1, 1⟩, ⟨0, 0⟩], rangeazimuths := [(1, 45), (1, 225)],
    cursor := ⟨0, 0⟩, last_azimuth := some 225, basis_adjustment := 0 }

/-- Concrete non-closing traverse. -/
def c1open : Traverse :=
  { points := [⟨0, 0⟩, ⟨1, 1⟩, ⟨2, 2⟩], rangeazimuths := [(1, 45), (1, 45)],
    cursor := ⟨2, 2⟩, last_azimuth := some 45, basis_adjustment := 0 }

/-- C1 (code bug): on a traverse whose last recorded point equals its first,
`as_polygon` does not return the same point sequence; line 130 of `cogo.py`
appends the Python empty list (`closure = []`) as an extra fourth element,
so the result has length `len(points) + 1` and its last element is not a
`Position`.  On a non-closing traverse the result is as the claim states:
the points followed by a copy of the first. -/
theorem c1_as_polygon_closed_bug :
    c1closed.points.length = 3 ∧
    c1closed.points.head? = c1closed.points.getLast? ∧
    c1closed.as_polygon =
      .ok [PolyElem.pos ⟨0, 0⟩, PolyElem.pos ⟨1, 1⟩, PolyElem.pos ⟨0, 0⟩, PolyElem.emptyList] ∧
    (∀ p : Position, PolyElem.emptyList ≠ PolyElem.pos p) ∧
    c1open.as_polygon =
      .ok [PolyElem.pos ⟨0, 0⟩, PolyElem.pos ⟨1, 1⟩, PolyElem.pos ⟨2, 2⟩, PolyElem.pos ⟨0, 0⟩] := by
  refine ⟨rfl, rfl, ?_, fun p h => PolyElem.noConfusion h, ?_⟩
  · norm_num [Traverse.as_polygon, c1closed, Position.copy]
  · norm_num [Traverse.as_polygon, c1open, Position.copy]

/-- `vincenty.rangebearing_from_positions` (`vincenty.py` lines 116-208),
modelled up to the short-circuit guard of lines 126-127: when both
coordinate differences are below `1e-8` the function returns `(0.0, 0.0,
0.0)` at once, before any of the trigonometry of the iterative inverse
solver runs.  The solver itself is a floating-point fixed-point iteration
outside this embedding; entering it is represented by `none`. -/
def rangebearing_from_positions (latitude1 longitude1 latitude2 longitude2 : ℚ) :
    Option (ℚ × ℚ × ℚ) :=
  if |latitude2 - latitude1| < 1 / 100000000 ∧ |longitude2 - longitude1| < 1 / 100000000 then
    some (0, 0, 0)
  else
    none

/-- C3: whenever both the latitude and longitude differences are below 1e-8
degrees, `rangebearing_from_positions` returns exactly `(0, 0, 0)` without
entering the iterative solver (which is the `none` branch of the model). -/
theorem c3_degenerate_inverse (lat1 lon1 lat2 lon2 : ℚ)
    (hlat : |lat2 - lat1| < 1 / 100000000) (hlon : |lon2 - lon1| < 1 / 100000000) :
    rangebearing_from_positions lat1 lon1 lat2 lon2 = some (0, 0, 0) := by
  rw [rangebearing_from_positions, if_pos ⟨hlat, hlon⟩]

theorem c3_degenerate_inverse_witness :
    |(37343150 / 1000000 : ℚ) - 37343150 / 1000000| < 1 / 100000000 ∧
    |(-123175722 / 1000000 : ℚ) - -123175722 / 1000000| < 1 / 100000000 ∧
    rangebearing_from_positions (37343150 / 1000000) (-123175722 / 1000000)
      (37343150 / 1000000) (-123175722 / 1000000) = some (0, 0, 0) :=
  ⟨by norm_num, by norm_num,
    c3_degenerate_inverse _ _ _ _ (by norm_num) (by norm_num)⟩

/-- Python float modulus `a % b` for a positive modulus `b`, as used by
`as_centerline` (`alpha_diff = (...) % 360` and `bearing % 360`). -/
def qmod (a b : ℚ) : ℚ := a - b * ⌊a / b⌋

/-- The local helper `displace` of `as_centerline` (`cogo.py` lines
146-151): a zero offset returns the point itself (an alias), otherwise a
copy displaced at the bearing normalised into [0, 360). -/
def clDisplace (geo : Geo) (point : Position) (range_f bearing : ℚ) : Position :=
  if range_f = 0 then point
  else (point.copy).displace geo range_f (qmod bearing 360)

/-- One interior vertex of `as_centerline` (`cogo.py` lines 157-170), fed
with the triple `(alpha_k, point, alpha_kP1)`; `c d` abstracts the float
expression `math.cos(alpha_diff * piD4 / 90.0)` (that is, `cos(d·π/360)`),
which is transcendental and outside the rational embedding.  Returns the
appended (right, left_rev) vertices or the near-reversal `ParseError`. -/
def clVertex (geo : Geo) (c : ℚ → ℚ) (right_in_feet left_in_feet : ℚ)
    (v : ℚ × Position × ℚ) : Except CogoErr (Position × Position) :=
  let alpha_k := v.1
  let point := v.2.1
  let alpha_kP1 := v.2.2
  let alpha_diff := qmod (alpha_kP1 - alpha_k) 360
  if 175 < alpha_diff ∧ alpha_diff < 185 then .error .parseError
  else if alpha_diff < 180 then
    let alpha := alpha_k + alpha_diff / 2
    let r := |right_in_feet / c alpha_diff|
    .ok (clDisplace geo point r (alpha + 90),
         clDisplace geo point left_in_feet (alpha - 90))
  else
    let alpha := alpha_k + alpha_diff / 2
    let r := |left_in_feet / c alpha_diff|
    .ok (clDisplace geo point right_in_feet (alpha + 180 + 90),
         clDisplace geo point r (alpha + 180 - 90))

/-- The interior-vertex loop of `as_centerline`, producing the (right,
left_rev) vertex pairs in traverse order, stopping at the first error. -/
def clInterior (geo : Geo) (c : ℚ → ℚ) (right_in_feet left_in_feet : ℚ) :
    List (ℚ × Position × ℚ) → Except CogoErr (List (Position × Position))
  | [] => .ok []
  | v :: rest =>
    match clVertex geo c right_in_feet left_in_feet v with
    | .error e => .error e
    | .ok pr =>
      match clInterior geo c right_in_feet left_in_feet rest with
      | .error e => .error e
      | .ok ps => .ok (pr :: ps)

/-- The near-reversal condition of `cogo.py` line 159 on an interior-vertex
triple `(alpha_k, point, alpha_kP1)`. -/
def clBadVertex (v : ℚ × Position × ℚ) : Prop :=
  175 < qmod (v.2.2 - v.1) 360 ∧ qmod (v.2.2 - v.1) 360 < 185

theorem clVertex_error_iff (geo : Geo) (c : ℚ → ℚ) (r l : ℚ) (v : ℚ × Position × ℚ) :
    (∃ e, clVertex geo c r l v = .error e) ↔ clBadVertex v := by
  unfold clVertex clBadVertex
  by_cases h1 : 175 < qmod (v.2.2 - v.1) 360 ∧ qmod (v.2.2 - v.1) 360 < 185
  · simp [h1]
  · simp only [if_neg h1]
    constructor
    · rintro ⟨e, he⟩
      split at he <;> cases he
    · intro h
      exact absurd h h1

/-- `Traverse.as_centerline` (`cogo.py` lines 132-173): `ParseError` below 2
points, the `assert` of line 141, endpoint perpendicular offsets, mitered
interior vertices via `clVertex`, and the returned ring
`right + reversed(left_rev)`. -/
def Traverse.as_centerline (geo : Geo) (c : ℚ → ℚ) (t : Traverse)
    (right_in_feet left_in_feet : ℚ) : Except CogoErr (List Position) :=
  if t.points.length < 2 then .error .parseError
  else if t.points.length ≠ t.rangeazimuths.length + 1 then .error .assertionError
  else
    let azimuths := t.rangeazimuths.map fun ra => ra.2
    match t.points.head?, azimuths.head?, t.points.getLast?, azimuths.getLast? with
    | some p0, some a0, some pN, some aN =>
      match clInterior geo c right_in_feet left_in_feet
          (azimuths.zip (t.points.tail.zip azimuths.tail)) with
      | .error e => .error e
      | .ok ps =>
        let pairs := (clDisplace geo p0 right_in_feet (a0 + 90),
                      clDisplace geo p0 left_in_feet (a0 - 90)) ::
                     ps ++ [(clDisplace geo pN right_in_feet (aN + 90),
                             clDisplace geo pN left_in_feet (aN - 90))]
        .ok (pairs.map Prod.fst ++ (pairs.map Prod.snd).reverse)
    | _, _, _, _ => .error .assertionError

theorem clInterior_error_iff (geo : Geo) (c : ℚ → ℚ) (r l : ℚ)
    (vs : List (ℚ × Position × ℚ)) :
    (∃ e, clInterior geo c r l vs = .error e) ↔ ∃ v ∈ vs, clBadVertex v := by
  induction vs with
  | nil => simp [clInterior]
  | cons v rest ih =>
    constructor
    · rintro ⟨e, he⟩
      simp only [clInterior] at he
      cases hv : clVertex geo c r l v with
      | error e2 =>
        exact ⟨v, List.mem_cons_self v rest, (clVertex_error_iff geo c r l v).1 ⟨e2, hv⟩⟩
      | ok pr =>
        rw [hv] at he
        cases hint : clInterior geo c r l rest with
        | error e3 =>
          rcases ih.1 ⟨e3, hint⟩ with ⟨v2, hv2, hbad⟩
          exact ⟨v2, List.mem_cons_of_mem v hv2, hbad⟩
        | ok ps => rw [hint] at he; cases he
    · rintro ⟨v2, hv2, hbad⟩
      rcases List.mem_cons.1 hv2 with rfl | hmem
      · rcases (clVertex_error_iff geo c r l v2).2 hbad with ⟨e, he⟩
        exact ⟨e, by simp only [clInterior]; rw [he]⟩
      · cases hv : clVertex geo c r l v with
        | error e2 => exact ⟨e2, by simp only [clInterior]; rw [hv]⟩
        | ok pr =>
          rcases ih.2 ⟨v2, hmem, hbad⟩ with ⟨e, he⟩
          exact ⟨e, by simp only [clInterior]; rw [hv, he]⟩

theorem clInterior_ok_length (geo : Geo) (c : ℚ → ℚ) (r l : ℚ)
    (vs : List (ℚ × Position × ℚ)) :
    ∀ ps, clInterior geo c r l vs = .ok ps → ps.length = vs.length := by
  induction vs with
  | nil =>
    intro ps h
    simp only [clInterior] at h
    cases h
    rfl
  | cons v rest ih =>
    intro ps h
    simp only [clInterior] at h
    cases hv : clVertex geo c r l v with
    | error e => rw [hv] at h; cases h
    | ok pr =>
      rw [hv] at h
      cases hint : clInterior geo c r l rest with
      | error e => rw [hint] at h; cases h
      | ok ps2 =>
        rw [hint] at h
        cases h
        simp [ih ps2 hint]

theorem clVertex_error_kind (geo : Geo) (c : ℚ → ℚ) (r l : ℚ) (v : ℚ × Position × ℚ) :
    ∀ e, clVertex geo c r l v = .error e → e = CogoErr.parseError := by
  intro e h
  simp only [clVertex] at h
  split at h
  · cases h
    rfl
  · split at h <;> exact Except.noConfusion h

theorem clInterior_error_kind (geo : Geo) (c : ℚ → ℚ) (r l : ℚ)
    (vs : List (ℚ × Position × ℚ)) :
    ∀ e, clInterior geo c r l vs = .error e → e = CogoErr.parseError := by
  induction vs with
  | nil =>
    intro e h
    simp only [clInterior] at h
    exact Except.noConfusion h
  | cons v rest ih =>
    intro e h
    simp only [clInterior] at h
    cases hv : clVertex geo c r l v with
    | error e2 =>
      rw [hv] at h
      injection h with h2
      rw [← h2]
      exact clVertex_error_kind geo c r l v e2 hv
    | ok pr =>
      rw [hv] at h
      cases hint : clInterior geo c r l rest with
      | error e3 =>
        rw [hint] at h
        injection h with h2
        rw [← h2]
        exact ih e3 hint
      | ok ps =>
        rw [hint] at h
        exact Except.noConfusion h

/-- The (right, left_rev) vertex pair that `as_centerline` appends for one
interior vertex on its non-error path (the two `add` calls of `cogo.py`
lines 161-170), as a total function of the `(alpha_k, point, alpha_kP1)`
triple. -/
def clVertexPair (geo : Geo) (c : ℚ → ℚ) (right_in_feet left_in_feet : ℚ)
    (v : ℚ × Position × ℚ) : Position × Position :=
  let alpha_k := v.1
  let point := v.2.1
  let alpha_kP1 := v.2.2
  let alpha_diff := qmod (alpha_kP1 - alpha_k) 360
  if alpha_diff < 180 then
    let alpha := alpha_k + alpha_diff / 2
    let r := |right_in_feet / c alpha_diff|
    (clDisplace geo point r (alpha + 90),
     clDisplace geo point left_in_feet (alpha - 90))
  else
    let alpha := alpha_k + alpha_diff / 2
    let r := |left_in_feet / c alpha_diff|
    (clDisplace geo point right_in_feet (alpha + 180 + 90),
     clDisplace geo point r (alpha + 180 - 90))

theorem clVertex_ok_eq (geo : Geo) (c : ℚ → ℚ) (r l : ℚ) (v : ℚ × Position × ℚ) :
    ∀ pr, clVertex geo c r l v = .ok pr → pr = clVertexPair geo c r l v := by
  intro pr h
  simp only [clVertex] at h
  simp only [clVertexPair]
  split at h
  · exact Except.noConfusion h
  · split at h
    · rename_i hd
      injection h with h2
      rw [← h2, if_pos hd]
    · rename_i hd
      injection h with h2
      rw [← h2, if_neg hd]

theorem clInterior_ok_eq (geo : Geo) (c : ℚ → ℚ) (r l : ℚ)
    (vs : List (ℚ × Position × ℚ)) :
    ∀ ps, clInterior geo c r l vs = .ok ps →
      ps = vs.map (clVertexPair geo c r l) := by
  induction vs with
  | nil =>
    intro ps h
    simp only [clInterior] at h
    cases h
    rfl
  | cons v rest ih =>
    intro ps h
    simp only [clInterior] at h
    cases hv : clVertex geo c r l v with
    | error e => rw [hv] at h; exact Except.noConfusion h
    | ok pr =>
      rw [hv] at h
      cases hint : clInterior geo c r l rest with
      | error e => rw [hint] at h; exact Except.noConfusion h
      | ok ps2 =>
        rw [hint] at h
        injection h with h2
        rw [← h2, List.map_cons, clVertex_ok_eq geo c r l v pr hv, ih ps2 hint]

/-- The full (right, left_rev) offset-pair list `as_centerline` builds on
its non-error path: plain perpendicular offsets at the two endpoints around
the mitered interior vertices (`clVertexPair`), one pair per traverse
point, in traverse order. -/
def clPairs (geo : Geo) (c : ℚ → ℚ) (t : Traverse) (right_in_feet left_in_feet : ℚ) :
    List (Position × Position) :=
  let azimuths := t.rangeazimuths.map fun ra => ra.2
  match t.points.head?, azimuths.head?, t.points.getLast?, azimuths.getLast? with
  | some p0, some a0, some pN, some aN =>
    (clDisplace geo p0 right_in_feet (a0 + 90),
     clDisplace geo p0 left_in_feet (a0 - 90)) ::
    (azimuths.zip (t.points.tail.zip azimuths.tail)).map
      (clVertexPair geo c right_in_feet left_in_feet) ++
    [(clDisplace geo pN right_in_feet (aN + 90),
      clDisplace geo pN left_in_feet (aN - 90))]
  | _, _, _, _ => []

/-- C6: under the `points`/`rangeazimuths` shape invariant that every
reachable traverse satisfies (unbegun, or one more point than edge),
`as_centerline` raises exactly when the traverse has fewer than 2 points or
some interior vertex's turn `alphaDiff = (azimuth_out - azimuth_in) mod
360` lies strictly between 175 and 185 degrees, and every error it raises
is the format error (`ParseError`); on success the result is exactly the
right-side offset vertices in traverse order (`clPairs … .map Prod.fst`)
followed by the left-side offset vertices reversed, one pair per traverse
point. -/
theorem c6_as_centerline_spec (geo : Geo) (c : ℚ → ℚ) (t : Traverse)
    (right_in_feet left_in_feet : ℚ)
    (hinv : (t.points = [] ∧ t.rangeazimuths = []) ∨
      t.points.length = t.rangeazimuths.length + 1) :
    ((∃ e, t.as_centerline geo c right_in_feet left_in_feet = .error e) ↔
      (t.points.length < 2 ∨
        ∃ v ∈ (t.rangeazimuths.map fun ra => ra.2).zip
            (t.points.tail.zip ((t.rangeazimuths.map fun ra => ra.2)).tail),
          clBadVertex v)) ∧
    (∀ e, t.as_centerline geo c right_in_feet left_in_feet = .error e →
      e = CogoErr.parseError) ∧
    (∀ res, t.as_centerline geo c right_in_feet left_in_feet = .ok res →
      res = (clPairs geo c t right_in_feet left_in_feet).map Prod.fst ++
          ((clPairs geo c t right_in_feet left_in_feet).map Prod.snd).reverse ∧
      (clPairs geo c t right_in_feet left_in_feet).length = t.points.length) := by
  by_cases hlt : t.points.length < 2
  · refine ⟨?_, ?_, ?_⟩
    · constructor
      · intro _; exact Or.inl hlt
      · intro _
        exact ⟨.parseError, by rw [Traverse.as_centerline, if_pos hlt]⟩
    · intro e he
      rw [Traverse.as_centerline, if_pos hlt] at he
      injection he with he2
      exact he2.symm
    · intro res hres
      rw [Traverse.as_centerline, if_pos hlt] at hres
      cases hres
  · have hshape : t.points.length = t.rangeazimuths.length + 1 := by
      rcases hinv with ⟨h1, _⟩ | h2
      · exact absurd (by rw [h1]; decide) hlt
      · exact h2
    have hlen2 : 2 ≤ t.points.length := not_lt.1 hlt
    have hne : t.points ≠ [] := by
      apply List.ne_nil_of_length_pos
      omega
    have hra1 : 1 ≤ t.rangeazimuths.length := by omega
    have hane : (t.rangeazimuths.map fun ra => ra.2) ≠ [] := by
      apply List.ne_nil_of_length_pos
      simp only [List.length_map]
      omega
    have hp0 := List.head?_eq_head hne
    have hpN := List.getLast?_eq_getLast t.points hne
    have ha0 := List.head?_eq_head hane
    have haN := List.getLast?_eq_getLast (t.rangeazimuths.map fun ra => ra.2) hane
    rw [Traverse.as_centerline]
    simp only [if_neg hlt, if_neg (not_not_intro hshape), hp0, ha0, hpN, haN]
    cases hint : clInterior geo c right_in_feet left_in_feet
        ((List.map (fun ra => ra.2) t.rangeazimuths).zip
          (t.points.tail.zip (List.map (fun ra => ra.2) t.rangeazimuths).tail)) with
    | error e =>
      simp only [hint]
      refine ⟨?_, ?_, ?_⟩
      · constructor
        · intro _
          exact Or.inr ((clInterior_error_iff geo c right_in_feet left_in_feet _).1 ⟨e, hint⟩)
        · intro _
          exact ⟨e, rfl⟩
      · intro e2 he2
        injection he2 with he3
        rw [← he3]
        exact clInterior_error_kind geo c right_in_feet left_in_feet _ e hint
      · intro res hres
        exact Except.noConfusion hres
    | ok ps =>
      simp only [hint]
      have hps := clInterior_ok_eq geo c right_in_feet left_in_feet _ ps hint
      have hpslen : ps.length = t.rangeazimuths.length - 1 := by
        have hl := clInterior_ok_length geo c right_in_feet left_in_feet _ ps hint
        rw [hl]
        simp only [List.length_zip, List.length_map, List.length_tail]
        omega
      refine ⟨?_, ?_, ?_⟩
      · constructor
        · rintro ⟨e, he⟩
          exact Except.noConfusion he
        · intro h
          rcases h with h | hbad
          · exact absurd h hlt
          · rcases (clInterior_error_iff geo c right_in_feet left_in_feet _).2 hbad with ⟨e, he⟩
            rw [he] at hint
            exact Except.noConfusion hint
      · intro e2 he2
        exact Except.noConfusion he2
      · intro res hres
        cases hres
        constructor
        · rw [clPairs]
          simp only [hp0, ha0, hpN, haN]
          rw [← hps]
        · rw [clPairs]
          simp only [hp0, ha0, hpN, haN]
          rw [← hps]
          simp only [List.length_cons, List.length_append, List.length_nil]
          omega

theorem c6_as_centerline_spec_witness :
    ((c1open.points = [] ∧ c1open.rangeazimuths = []) ∨
      c1open.points.length = c1open.rangeazimuths.length + 1) ∧
    (((∃ e, c1open.as_centerline geoAz (fun _ => 1) 0 0 = .error e) ↔
      (c1open.points.length < 2 ∨
        ∃ v ∈ (c1open.rangeazimuths.map fun ra => ra.2).zip
            (c1open.points.tail.zip ((c1open.rangeazimuths.map fun ra => ra.2)).tail),
          clBadVertex v)) ∧
    (∀ e, c1open.as_centerline geoAz (fun _ => 1) 0 0 = .error e →
      e = CogoErr.parseError) ∧
    (∀ res, c1open.as_centerline geoAz (fun _ => 1) 0 0 = .ok res →
      res = (clPairs geoAz (fun _ => 1) c1open 0 0).map Prod.fst ++
          ((clPairs geoAz (fun _ => 1) c1open 0 0).map Prod.snd).reverse ∧
      (clPairs geoAz (fun _ => 1) c1open 0 0).length = c1open.points.length)) :=
  ⟨Or.inr rfl, c6_as_centerline_spec geoAz (fun _ => 1) c1open 0 0 (Or.inr rfl)⟩

/-- ASCII decimal digit test. -/
def isDigitChar (ch : Char) : Bool := '0' ≤ ch && ch ≤ '9'

/-- Numeric value of a digit list, most significant digit first. -/
def digitsVal (l : List Char) : ℕ :=
  l.foldl (fun acc ch => 10 * acc + (ch.toNat - '0'.toNat)) 0

/-- Remove leading and trailing spaces (the whitespace stripping of Python
`int`/`float`; other whitespace kinds are outside the model). -/
def stripSpaces (s : List Char) : List Char :=
  ((s.dropWhile fun ch => ch = ' ').reverse.dropWhile fun ch => ch = ' ').reverse

/-- Python `int(s)`: surrounding spaces stripped, then an optional sign
followed by one or more digits.  (Underscore separators and non-ASCII
digits are outside the model.) -/
def parseIntPy (s : List Char) : Option ℤ :=
  match stripSpaces s with
  | [] => none
  | '+' :: rest =>
    if !rest.isEmpty && rest.all isDigitChar then some (digitsVal rest : ℤ) else none
  | '-' :: rest =>
    if !rest.isEmpty && rest.all isDigitChar then some (-(digitsVal rest : ℤ)) else none
  | l =>
    if l.all isDigitChar then some (digitsVal l : ℤ) else none

/-- Exponent suffix of a Python float literal (the part after `e`/`E`):
optional sign and one or more digits, scaling the mantissa. -/
def floatExp (mant : ℚ) : List Char → Option ℚ
  | '+' :: rest =>
    if !rest.isEmpty && rest.all isDigitChar then
      some (mant * (10 : ℚ) ^ (digitsVal rest : ℤ))
    else none
  | '-' :: rest =>
    if !rest.isEmpty && rest.all isDigitChar then
      some (mant * (10 : ℚ) ^ (-(digitsVal rest : ℤ)))
    else none
  | l =>
    if !l.isEmpty && l.all isDigitChar then
      some (mant * (10 : ℚ) ^ (digitsVal l : ℤ))
    else none

/-- Value of the fractional digit list: `digits / 10^len`. -/
def fracVal (l : List Char) : ℚ := (digitsVal l : ℚ) / (10 : ℚ) ^ l.length

/-- Unsigned part of a Python float literal: digits with optional decimal
point and optional exponent (`"12"`, `"12."`, `".5"`, `"1.5e-3"`, ...). -/
def parseUnsignedFloat (s : List Char) : Option ℚ :=
  let intPart := s.takeWhile isDigitChar
  let rest := s.dropWhile isDigitChar
  match rest with
  | [] => if intPart.isEmpty then none else some (digitsVal intPart : ℚ)
  | '.' :: rest2 =>
    let fracPart := rest2.takeWhile isDigitChar
    let rest3 := rest2.dropWhile isDigitChar
    if intPart.isEmpty && fracPart.isEmpty then none
    else
      match rest3 with
      | [] => some ((digitsVal intPart : ℚ) + fracVal fracPart)
      | 'e' :: rest4 => floatExp ((digitsVal intPart : ℚ) + fracVal fracPart) rest4
      | 'E' :: rest4 => floatExp ((digitsVal intPart : ℚ) + fracVal fracPart) rest4
      | _ => none
  | 'e' :: rest4 =>
    if intPart.isEmpty then none else floatExp (digitsVal intPart : ℚ) rest4
  | 'E' :: rest4 =>
    if intPart.isEmpty then none else floatExp (digitsVal intPart : ℚ) rest4
  | _ => none

/-- Python `float(s)` restricted to finite decimal/scientific literals,
idealised as an exact rational (float rounding, `inf`/`nan` words and
underscore separators are outside the model). -/
def parseFloatPy (s : List Char) : Option ℚ :=
  match stripSpaces s with
  | '+' :: r => parseUnsignedFloat r
  | '-' :: r => (parseUnsignedFloat r).map Neg.neg
  | r => parseUnsignedFloat r

/-- `cogo.parse_angle` (`cogo.py` lines 223-237).  The `try: float(elem)`
succeeds exactly when `parseFloatPy` does, yielding a `ParseError` outside
[0, 90]; the `except ValueError` branch checks the 8-character `DD MM SS`
layout and parses the three 2-character components with `int`, whose own
`ValueError` on a non-numeral component propagates out of `parse_angle`. -/
def parse_angle (elem : List Char) : Except CogoErr ℚ :=
  match parseFloatPy elem with
  | some degrees =>
    if degrees < 0 ∨ degrees > 90 then .error .parseError else .ok degrees
  | none =>
    if elem.length ≠ 8 ∨ elem[2]? ≠ some ' ' ∨ elem[5]? ≠ some ' ' then .error .valueError
    else
      match parseIntPy (elem.take 2), parseIntPy ((elem.drop 3).take 2),
          parseIntPy (elem.drop 6) with
      | some degrees, some minutes, some seconds =>
        if degrees < 0 ∨ minutes < 0 ∨ seconds < 0 ∨ degrees > 90 ∨ minutes > 59 ∨ seconds > 59
        then .error .valueError
        else .ok ((degrees : ℚ) + (minutes : ℚ) / 60 + (seconds : ℚ) / 3600)
      | _, _, _ => .error .valueError

/-- The `DD MM SS` layout condition the claim states: exactly 8 characters
with spaces at positions 3 and 6 (1-indexed). -/
def dmsFormatOk (s : List Char) : Bool :=
  s.length == 8 && s[2]? == some ' ' && s[5]? == some ' '

/-- The failure condition exactly as claim C7 words it: numeric token
outside [0, 90]; non-numeric token with a bad layout; or minutes/seconds
at least 60 or a negative component. -/
def parseAngleFailClaimed (s : List Char) : Bool :=
  match parseFloatPy s with
  | some q => decide (q < 0) || decide (90 < q)
  | none =>
    if !dmsFormatOk s then true
    else
      match parseIntPy (s.take 2), parseIntPy ((s.drop 3).take 2), parseIntPy (s.drop 6) with
      | some d, some m, some sec =>
        decide (60 ≤ m) || decide (60 ≤ sec) ||
        decide (d < 0) || decide (m < 0) || decide (sec < 0)
      | _, _, _ => false

/-- The failure condition of the amended claim C7: additionally a DMS
degrees component above 90 fails, as does any component that is not an
integer numeral. -/
def parseAngleFailAmended (s : List Char) : Bool :=
  match parseFloatPy s with
  | some q => decide (q < 0) || decide (90 < q)
  | none =>
    if !dmsFormatOk s then true
    else
      match parseIntPy (s.take 2), parseIntPy ((s.drop 3).take 2), parseIntPy (s.drop 6) with
      | some d, some m, some sec =>
        decide (d < 0) || decide (m < 0) || decide (sec < 0) ||
        decide (90 < d) || decide (59 < m) || decide (59 < sec)
      | _, _, _ => true

/-- C7 (amended): `parse_angle` returns a value in
[0, 90 + 59/60 + 59/3600] when it succeeds (a DMS token with degrees = 90
and nonzero minutes/seconds exceeds 90), and fails exactly when: a numeric
token lies outside [0, 90]; a non-numeric token is not exactly 8 characters
with spaces at positions 3 and 6; a DMS component is not an integer
numeral; or a DMS token has degrees above 90, minutes or seconds at least
60, or any negative component. -/
theorem c7_parse_angle_spec (s : List Char) :
    (∀ q, parse_angle s = .ok q → 0 ≤ q ∧ q ≤ 90 + 59 / 60 + 59 / 3600) ∧
    ((∃ e, parse_angle s = .error e) ↔ parseAngleFailAmended s = true) := by
  unfold parse_angle parseAngleFailAmended
  cases hf : parseFloatPy s with
  | some q =>
    by_cases hc : q < 0 ∨ q > 90
    · simp only [if_pos hc]
      constructor
      · intro q' h
        exact Except.noConfusion h
      · simp only [Bool.or_eq_true, decide_eq_true_eq]
        constructor
        · intro _
          exact hc
        · intro _
          exact ⟨.parseError, rfl⟩
    · simp only [if_neg hc]
      rcases not_or.1 hc with ⟨h1, h2⟩
      constructor
      · intro q' h
        cases h
        constructor
        · linarith [not_lt.1 h1]
        · have := not_lt.1 h2
          linarith
      · simp only [Bool.or_eq_true, decide_eq_true_eq]
        constructor
        · rintro ⟨e, he⟩
          exact Except.noConfusion he
        · intro h
          exact absurd h hc
  | none =>
    by_cases hfmt : s.length = 8 ∧ s[2]? = some ' ' ∧ s[5]? = some ' '
    · have hcond : ¬(s.length ≠ 8 ∨ s[2]? ≠ some ' ' ∨ s[5]? ≠ some ' ') := by
        simp [hfmt.1, hfmt.2.1, hfmt.2.2]
      have hbool : dmsFormatOk s = true := by
        simp [dmsFormatOk, hfmt.1, hfmt.2.1, hfmt.2.2]
      simp only [if_neg hcond, hbool, Bool.not_true, Bool.false_eq_true, if_false]
      cases hd : parseIntPy (s.take 2) with
      | none =>
        constructor
        · intro q h
          exact Except.noConfusion h
        · simp only [iff_true]
          exact ⟨.valueError, rfl⟩
      | some d =>
        cases hm : parseIntPy ((s.drop 3).take 2) with
        | none =>
          constructor
          · intro q h
            exact Except.noConfusion h
          · simp only [iff_true]
            exact ⟨.valueError, rfl⟩
        | some m =>
          cases hsec : parseIntPy (s.drop 6) with
          | none =>
            constructor
            · intro q h
              exact Except.noConfusion h
            · simp only [iff_true]
              exact ⟨.valueError, rfl⟩
          | some sec =>
            by_cases hr : d < 0 ∨ m < 0 ∨ sec < 0 ∨ d > 90 ∨ m > 59 ∨ sec > 59
            · simp only [if_pos hr]
              constructor
              · intro q h
                exact Except.noConfusion h
              · simp only [Bool.or_eq_true, decide_eq_true_eq]
                constructor
                · intro _
                  omega
                · intro _
                  exact ⟨.valueError, rfl⟩
            · simp only [if_neg hr]
              constructor
              · intro q h
                cases h
                have hd0 : 0 ≤ d := by omega
                have hd90 : d ≤ 90 := by omega
                have hm0 : 0 ≤ m := by omega
                have hm59 : m ≤ 59 := by omega
                have hs0 : 0 ≤ sec := by omega
                have hs59 : sec ≤ 59 := by omega
                have hdq : (0 : ℚ) ≤ (d : ℚ) ∧ (d : ℚ) ≤ 90 := by
                  constructor <;> exact_mod_cast (by assumption)
                have hmq : (0 : ℚ) ≤ (m : ℚ) ∧ (m : ℚ) ≤ 59 := by
                  constructor <;> exact_mod_cast (by assumption)
                have hsq : (0 : ℚ) ≤ (sec : ℚ) ∧ (sec : ℚ) ≤ 59 := by
                  constructor <;> exact_mod_cast (by assumption)
                constructor
                · linarith [hdq.1, hmq.1, hsq.1]
                · linarith [hdq.2, hmq.2, hsq.2]
              · constructor
                · rintro ⟨e, he⟩
                  exact Except.noConfusion he
                · simp only [Bool.or_eq_true, decide_eq_true_eq]
                  intro h
                  omega
    · have hcond : s.length ≠ 8 ∨ s[2]? ≠ some ' ' ∨ s[5]? ≠ some ' ' := by
        tauto
      have hbool : dmsFormatOk s = false := by
        rw [Bool.eq_false_iff]
        intro h
        apply hfmt
        have h2 := h
        simp only [dmsFormatOk, Bool.and_eq_true, beq_iff_eq] at h2
        exact ⟨h2.1.1, h2.1.2, h2.2⟩
      simp only [if_pos hcond, hbool, Bool.not_false, if_true]
      constructor
      · intro q h
        exact Except.noConfusion h
      · simp only [iff_true]
        exact ⟨.valueError, rfl⟩

/-- The token `"90 30 00"`. -/
def c7tok9030 : List Char := ['9', '0', ' ', '3', '0', ' ', '0', '0']

/-- The token `"91 00 00"`. -/
def c7tok9100 : List Char := ['9', '1', ' ', '0', '0', ' ', '0', '0']

/-- The token `"45"`. -/
def c7tok45 : List Char := ['4', '5']

/-- C7 counterexample: `parse_angle "90 30 00"` succeeds with 90.5, outside
the claimed range [0, 90]; and `parse_angle "91 00 00"` fails although none
of the failure conditions listed by the claim holds for it (it is
non-numeric, correctly formatted, with non-negative components and
minutes/seconds below 60 — only its degrees component exceeds 90). -/
theorem c7_counterexample :
    parse_angle c7tok9030 = .ok (181 / 2) ∧
    ¬((181 : ℚ) / 2 ≤ 90) ∧
    parse_angle c7tok9100 = .error .valueError ∧
    parseAngleFailClaimed c7tok9100 = false := by
  refine ⟨?_, by norm_num, ?_, by decide⟩
  · have h1 : parseFloatPy c7tok9030 = none := by decide
    have h2 : parseIntPy (c7tok9030.take 2) = some 90 := by decide
    have h3 : parseIntPy ((c7tok9030.drop 3).take 2) = some 30 := by decide
    have h4 : parseIntPy (c7tok9030.drop 6) = some 0 := by decide
    rw [parse_angle, h1, h2, h3, h4]
    norm_num [c7tok9030]
  · have h1 : parseFloatPy c7tok9100 = none := by decide
    have h2 : parseIntPy (c7tok9100.take 2) = some 91 := by decide
    have h3 : parseIntPy ((c7tok9100.drop 3).take 2) = some 0 := by decide
    have h4 : parseIntPy (c7tok9100.drop 6) = some 0 := by decide
    rw [parse_angle, h1, h2, h3, h4]
    norm_num [c7tok9100]

theorem c7_parse_angle_spec_witness :
    parse_angle c7tok45 = .ok 45 ∧
    (0 ≤ (45 : ℚ) ∧ (45 : ℚ) ≤ 90 + 59 / 60 + 59 / 3600) :=
  ⟨by decide, (c7_parse_angle_spec c7tok45).1 45 (by decide)⟩

/-- A raw coordinate as stored in the geometry tables of `design.py`: an
`(x, y, *z)` tuple with at least two entries. -/
structure Coord where
  x : ℚ
  y : ℚ
  zrest : List ℚ
deriving DecidableEq

/-- The list-comprehension of `design.py` line 149:
`(x, y, z[0] if z else 0)`. -/
def coordTo3 (c : Coord) : ℚ × ℚ × ℚ :=
  (c.x, c.y, match c.zrest with | [] => 0 | z :: _ => z)

/-- Exception kinds raised by the `design.py` code paths modelled here.
`geofibDesignError` is the `GeofibDesignError` class of `design.py` that
the spec calls a structural-configuration error; `attributeError` is
Python's `AttributeError` (e.g. dereferencing `path_to_parent` when it is
`None`); `keyError`/`indexError` come from dictionary and list lookups;
`assertionError` from `assert`. -/
inductive DErr
  | keyError
  | indexError
  | attributeError
  | assertionError
  | geofibDesignError
deriving DecidableEq

/-- `design.Vault` state (`design.py` lines 42-50).  `parent` holds the
parent vault's name (the Python object reference is modelled by name lookup
in the vault map); `path_to_parent` is the coordinate list of the shapely
sub-segment, `none` until `set_parent` assigns it; `name_to_child` keeps
the child names.  The `coords` field (vault location, used only by shapely
snapping in `set_parent`) is omitted. -/
structure Vault where
  name : String
  parent : Option String
  name_to_child : List String
  path_to_parent : Option (List Coord)
  microducts : ℤ
  splices : Finset String
  trunk_carries : Finset String
  duct_carries : Finset String
deriving DecidableEq

/-- The vault dictionary `FiberManager.name_to_vault`, as an association
list in insertion order. -/
abbrev VMap := List (String × Vault)

/-- First-match association-list lookup (Python dictionary access). -/
def lookupA {α : Type} : List (String × α) → String → Option α
  | [], _ => none
  | (k, v) :: rest, n => if k = n then some v else lookupA rest n

/-- Pointwise update of the vault bound to a name (mutation of the Python
object that the dictionary references). -/
def updateV (m : VMap) (n : String) (f : Vault → Vault) : VMap :=
  m.map fun kv => if kv.1 = n then (kv.1, f kv.2) else kv

/-- `self.splices.add(name)` on one vault. -/
def addSplice (d : String) (v : Vault) : Vault :=
  { v with splices := insert d v.splices }

/-- `upstream.trunk_carries.add(name)` on one vault. -/
def addTrunk (d : String) (v : Vault) : Vault :=
  { v with trunk_carries := insert d v.trunk_carries }

/-- `Vault.set_duct_carries` (`design.py` lines 81-82) on one vault. -/
def addDuct (d : String) (v : Vault) : Vault :=
  { v with duct_carries := insert d v.duct_carries }

/-- The `while upstream:` loop of `Vault.set_splicepoint_for` (`design.py`
lines 76-79): walk the parent chain adding the drop to every vault's
`trunk_carries`.  The fuel bounds the walk; any fuel at least the number of
vaults is enough for an acyclic map (on a cyclic map the Python loop would
not terminate). -/
def spliceWalk (d : String) : ℕ → VMap → Option String → VMap
  | _, m, none => m
  | 0, m, some _ => m
  | fuel + 1, m, some n =>
    match lookupA m n with
    | none => m
    | some v => spliceWalk d fuel (updateV m n (addTrunk d)) v.parent

/-- `Vault.set_splicepoint_for` (`design.py` lines 74-79) on the vault named
`n`: add the drop to its `splices`, then walk every ancestor (itself
included) adding the drop to `trunk_carries`. -/
def set_splicepoint_for (m : VMap) (n d : String) : VMap :=
  spliceWalk d (m.length + 1) (updateV m n (addSplice d)) (some n)

/-- `Vault.ancestors` (`design.py` lines 84-87) with the identity `for_each`,
collecting the names of the chain from `cur` to the root, stopping before
any name in `stop` (the `stop_set`).  Fuel as in `spliceWalk`. -/
def ancestorsNames (m : VMap) : ℕ → Finset String → Option String → List String
  | _, _, none => []
  | 0, _, some _ => []
  | fuel + 1, stop, some n =>
    if n ∈ stop then []
    else
      match lookupA m n with
      | none => []
      | some v => n :: ancestorsNames m fuel stop v.parent

/-- `Vault.ancestors` with the side-effecting `for_each` of
`FiberManager.add_fiber_drop` (`design.py` lines 146-148): each visited
vault gets `set_duct_carries(demarcname)` and contributes
`path_to_parent.coords`; a visited vault with `path_to_parent = None` (the
root of its tree) raises `AttributeError` on the `.coords` access. -/
def ductWalk (d : String) : ℕ → VMap → Finset String → Option String →
    Except DErr (VMap × List Coord)
  | _, m, _, none => .ok (m, [])
  | 0, m, _, some _ => .ok (m, [])
  | fuel + 1, m, stop, some n =>
    if n ∈ stop then .ok (m, [])
    else
      match lookupA m n with
      | none => .ok (m, [])
      | some v =>
        let m1 := updateV m n (addDuct d)
        match v.path_to_parent with
        | none => .error .attributeError
        | some path =>
          match ductWalk d fuel m1 stop v.parent with
          | .error e => .error e
          | .ok (m2, cs) => .ok (m2, path ++ cs)

/-- `FiberManager.get_head_end` (`design.py` lines 111-120): scan the vaults
in insertion order; a second parentless vault is a `GeofibDesignError`,
none at all fails the final `assert`. -/
def headEndScan : List (String × Vault) → Option String → Except DErr (Option String)
  | [], acc => .ok acc
  | (k, v) :: rest, acc =>
    if v.parent.isNone then
      match acc with
      | some _ => .error .geofibDesignError
      | none => headEndScan rest (some k)
    else headEndScan rest acc

/-- `FiberManager.get_head_end`, returning the head-end vault's name. -/
def get_head_end (m : VMap) : Except DErr String :=
  match headEndScan m none with
  | .error e => .error e
  | .ok none => .error .assertionError
  | .ok (some k) => .ok k

/-- `design.FiberManager` state (`design.py` lines 90-93): the read-only
name→coordinates table and the vault map. -/
structure FiberManager where
  name_to_coords : List (String × List Coord)
  name_to_vault : VMap
deriving DecidableEq

/-- `FiberManager.add_fiber_drop` (`design.py` lines 134-149).  `seglen`
abstracts `get_vincenty_length` on a two-point segment (floating-point
Vincenty inverse plus rounding), used only to orient the drop alignment.
The demarc coordinate lookup, the two vault lookups, the splice-point
marking, the ancestor-name sets, their intersection `common`, and the two
duct walks are translated directly; the returned path is
`coords + reversed(revme)` mapped through the `(x, y, z[0] if z else 0)`
comprehension. -/
def add_fiber_drop (seglen : Coord → Coord → ℚ) (fm : FiberManager)
    (demarcname : String) (alignment : List Coord) (bbvaultname splicevaultname : String) :
    Except DErr (FiberManager × List (ℚ × ℚ × ℚ)) :=
  match lookupA fm.name_to_coords demarcname with
  | none => .error .keyError
  | some [] => .error .indexError
  | some (c0 :: _) =>
    let coords : List Coord := c0 :: (
      match alignment with
      | [] => []
      | a0 :: arest =>
        let first := seglen c0 a0
        let last := seglen c0 ((a0 :: arest).getLast (List.cons_ne_nil a0 arest))
        if first < last then alignment else alignment.reverse)
    match lookupA fm.name_to_vault bbvaultname with
    | none => .error .keyError
    | some _ =>
      match lookupA fm.name_to_vault splicevaultname with
      | none => .error .keyError
      | some _ =>
        let m1 := set_splicepoint_for fm.name_to_vault splicevaultname demarcname
        let bbaNames := (ancestorsNames m1 (m1.length + 1) ∅ (some bbvaultname)).toFinset
        let svaNames := (ancestorsNames m1 (m1.length + 1) ∅ (some splicevaultname)).toFinset
        let common := bbaNames ∩ svaNames
        match ductWalk demarcname (m1.length + 1) m1 common (some bbvaultname) with
        | .error e => .error e
        | .ok (m2, cs1) =>
          match ductWalk demarcname (m1.length + 1) m2 common (some splicevaultname) with
          | .error e => .error e
          | .ok (m3, revme) =>
            .ok ({ fm with name_to_vault := m3 },
                 (coords ++ cs1 ++ revme.reverse).map coordTo3)

theorem lookupA_mem {α : Type} (m : List (String × α)) (x : String) (v : α)
    (h : lookupA m x = some v) : (x, v) ∈ m := by
  induction m with
  | nil => exact Option.noConfusion h
  | cons kv rest ih =>
    obtain ⟨k, w⟩ := kv
    by_cases hk : k = x
    · subst hk
      simp only [lookupA, if_pos rfl] at h
      cases h
      exact List.mem_cons_self _ _
    · simp only [lookupA, if_neg hk] at h
      exact List.mem_cons_of_mem _ (ih h)

theorem lookupA_isSome_of_mem {α : Type} (m : List (String × α)) (x : String) (v : α)
    (h : (x, v) ∈ m) : ∃ v2, lookupA m x = some v2 := by
  induction m with
  | nil => cases h
  | cons kv rest ih =>
    obtain ⟨k, w⟩ := kv
    by_cases hk : k = x
    · exact ⟨w, by simp [lookupA, hk]⟩
    · rcases List.mem_cons.1 h with heq | hmem
      · cases heq
        exact absurd rfl hk
      · rcases ih hmem with ⟨v2, hv2⟩
        exact ⟨v2, by simp [lookupA, hk, hv2]⟩

theorem lookupA_updateV (m : VMap) (n : String) (f : Vault → Vault) (x : String) :
    lookupA (updateV m n f) x =
      if x = n then (lookupA m n).map f else lookupA m x := by
  induction m with
  | nil =>
    simp only [updateV, List.map_nil, lookupA, Option.map_none']
    exact (ite_self none).symm
  | cons kv rest ih =>
    obtain ⟨k, v⟩ := kv
    have hstep : updateV ((k, v) :: rest) n f =
        (if k = n then (k, f v) else (k, v)) :: updateV rest n f := by
      simp [updateV]
    rw [hstep]
    by_cases hk : k = n
    · subst hk
      rw [if_pos rfl]
      by_cases hx : x = k
      · subst hx
        simp [lookupA]
      · have hkx : ¬(k = x) := fun h => hx h.symm
        simp [lookupA, hkx, hx, ih]
    · rw [if_neg hk]
      by_cases hx : x = k
      · subst hx
        have hxn : ¬(x = n) := hk
        simp [lookupA, hxn]
      · have hkx : ¬(k = x) := fun h => hx h.symm
        simp [lookupA, hkx, hk, ih]

theorem updateV_length (m : VMap) (n : String) (f : Vault → Vault) :
    (updateV m n f).length = m.length := by
  simp [updateV]

theorem ancestorsNames_updateV (m : VMap) (n : String) (f : Vault → Vault)
    (hpar : ∀ v, (f v).parent = v.parent) (fuel : ℕ) (stop : Finset String)
    (cur : Option String) :
    ancestorsNames (updateV m n f) fuel stop cur = ancestorsNames m fuel stop cur := by
  induction fuel generalizing cur with
  | zero => cases cur <;> rfl
  | succ fuel ih =>
    cases cur with
    | none => rfl
    | some x =>
      simp only [ancestorsNames]
      by_cases hstop : x ∈ stop
      · simp [hstop]
      · simp only [if_neg hstop]
        rw [lookupA_updateV]
        by_cases hx : x = n
        · subst hx
          cases hm : lookupA m x with
          | none => simp
          | some v => simp [hpar v, ih]
        · simp only [if_neg hx]
          cases hm : lookupA m x with
          | none => rfl
          | some v => simp [ih]

theorem spliceWalk_length (d : String) (fuel : ℕ) (m : VMap) (cur : Option String) :
    (spliceWalk d fuel m cur).length = m.length := by
  induction fuel generalizing m cur with
  | zero => cases cur <;> rfl
  | succ fuel ih =>
    cases cur with
    | none => rfl
    | some n =>
      simp only [spliceWalk]
      cases hm : lookupA m n with
      | none => rfl
      | some v => rw [ih, updateV_length]

theorem addTrunk_addTrunk (d : String) (v : Vault) :
    addTrunk d (addTrunk d v) = addTrunk d v := by
  simp [addTrunk, Finset.insert_idem]

/-- Each vault after a `spliceWalk` is either unchanged or has exactly the
drop added to its `trunk_carries`. -/
theorem spliceWalk_lookup (d : String) (fuel : ℕ) (m : VMap) (cur : Option String)
    (x : String) :
    lookupA (spliceWalk d fuel m cur) x = lookupA m x ∨
    lookupA (spliceWalk d fuel m cur) x = (lookupA m x).map (addTrunk d) := by
  induction fuel generalizing m cur with
  | zero => cases cur <;> exact Or.inl rfl
  | succ fuel ih =>
    cases cur with
    | none => exact Or.inl rfl
    | some n =>
      simp only [spliceWalk]
      cases hm : lookupA m n with
      | none => exact Or.inl rfl
      | some v =>
        have hup := lookupA_updateV m n (addTrunk d) x
        by_cases hx : x = n
        · subst hx
          rw [if_pos rfl, hm] at hup
          rcases ih (updateV m x (addTrunk d)) v.parent with h | h
          · rw [h, hup, hm]
            exact Or.inr rfl
          · rw [h, hup, hm]
            right
            simp [addTrunk_addTrunk]
        · rw [if_neg hx] at hup
          rcases ih (updateV m n (addTrunk d)) v.parent with h | h
          · rw [h, hup]
            exact Or.inl rfl
          · rw [h, hup]
            exact Or.inr rfl

theorem addTrunk_parent (d : String) (v : Vault) : (addTrunk d v).parent = v.parent := rfl

theorem addSplice_parent (d : String) (v : Vault) : (addSplice d v).parent = v.parent := rfl

theorem addDuct_parent (d : String) (v : Vault) : (addDuct d v).parent = v.parent := rfl

theorem ancestorsNames_spliceWalk (d : String) (fuel : ℕ) (m : VMap) (cur : Option String)
    (fuel2 : ℕ) (stop : Finset String) (cur2 : Option String) :
    ancestorsNames (spliceWalk d fuel m cur) fuel2 stop cur2 =
      ancestorsNames m fuel2 stop cur2 := by
  induction fuel generalizing m cur with
  | zero => cases cur <;> rfl
  | succ fuel ih =>
    cases cur with
    | none => rfl
    | some n =>
      simp only [spliceWalk]
      cases hm : lookupA m n with
      | none => rfl
      | some v =>
        rw [ih, ancestorsNames_updateV m n (addTrunk d) (addTrunk_parent d)]

/-- A `spliceWalk` adds the drop to the `trunk_carries` of every vault on
the walked chain. -/
theorem spliceWalk_marks (d : String) (fuel : ℕ) (m : VMap) (cur : Option String) :
    ∀ u ∈ ancestorsNames m fuel ∅ cur,
      ∃ v2, lookupA (spliceWalk d fuel m cur) u = some v2 ∧ d ∈ v2.trunk_carries := by
  induction fuel generalizing m cur with
  | zero =>
    intro u hu
    cases cur <;> cases hu
  | succ fuel ih =>
    intro u hu
    cases cur with
    | none => cases hu
    | some n =>
      simp only [ancestorsNames, Finset.not_mem_empty, if_false] at hu
      cases hm : lookupA m n with
      | none => rw [hm] at hu; cases hu
      | some v =>
        rw [hm] at hu
        simp only [spliceWalk, hm]
        rcases List.mem_cons.1 hu with rfl | hmem
        · have hup := lookupA_updateV m u (addTrunk d) u
          rw [if_pos rfl, hm] at hup
          rcases spliceWalk_lookup d fuel (updateV m u (addTrunk d)) v.parent u with h | h
          · rw [hup] at h
            exact ⟨addTrunk d v, h, Finset.mem_insert_self d _⟩
          · rw [hup] at h
            refine ⟨addTrunk d (addTrunk d v), h, ?_⟩
            simp [addTrunk]
        · have hchain : u ∈ ancestorsNames (updateV m n (addTrunk d)) fuel ∅ v.parent := by
            rw [ancestorsNames_updateV m n (addTrunk d) (addTrunk_parent d)]
            exact hmem
          exact ih (updateV m n (addTrunk d)) v.parent u hchain

theorem set_splicepoint_length (m : VMap) (n d : String) :
    (set_splicepoint_for m n d).length = m.length := by
  rw [set_splicepoint_for, spliceWalk_length, updateV_length]

theorem ancestorsNames_set_splicepoint (m : VMap) (n d : String) (fuel : ℕ)
    (stop : Finset String) (cur : Option String) :
    ancestorsNames (set_splicepoint_for m n d) fuel stop cur =
      ancestorsNames m fuel stop cur := by
  rw [set_splicepoint_for, ancestorsNames_spliceWalk,
    ancestorsNames_updateV m n (addSplice d) (addSplice_parent d)]

theorem set_splicepoint_lookup (m : VMap) (n d x : String) :
    (∀ v, lookupA m x = some v →
      ∃ v2, lookupA (set_splicepoint_for m n d) x = some v2 ∧
        v2.parent = v.parent ∧ v.trunk_carries ⊆ v2.trunk_carries ∧
        v2.trunk_carries ⊆ insert d v.trunk_carries) ∧
    (lookupA m x = none → lookupA (set_splicepoint_for m n d) x = none) := by
  have hup := lookupA_updateV m n (addSplice d) x
  have hsw := spliceWalk_lookup d (m.length + 1) (updateV m n (addSplice d)) (some n) x
  rw [set_splicepoint_for]
  constructor
  · intro v hv
    by_cases hx : x = n
    · subst hx
      rw [if_pos rfl, hv] at hup
      rcases hsw with h | h <;> rw [hup] at h
      · exact ⟨addSplice d v, h, rfl, Finset.Subset.refl _, Finset.subset_insert d _⟩
      · refine ⟨addTrunk d (addSplice d v), h, rfl, ?_, ?_⟩
        · intro a ha
          exact Finset.mem_insert_of_mem ha
        · intro a ha
          rcases Finset.mem_insert.1 ha with rfl | ha2
          · exact Finset.mem_insert_self a _
          · exact Finset.mem_insert_of_mem ha2
    · rw [if_neg hx, hv] at hup
      rcases hsw with h | h <;> rw [hup] at h
      · exact ⟨v, h, rfl, Finset.Subset.refl _, Finset.subset_insert d _⟩
      · refine ⟨addTrunk d v, h, rfl, Finset.subset_insert d _, Finset.Subset.refl _⟩
  · intro hv
    by_cases hx : x = n
    · subst hx
      rw [if_pos rfl, hv] at hup
      rcases hsw with h | h <;> rw [hup] at h <;> simpa using h
    · rw [if_neg hx, hv] at hup
      rcases hsw with h | h <;> rw [hup] at h <;> simpa using h

theorem set_splicepoint_marks (m : VMap) (n d : String) :
    ∀ u ∈ ancestorsNames m (m.length + 1) ∅ (some n),
      ∃ v2, lookupA (set_splicepoint_for m n d) u = some v2 ∧ d ∈ v2.trunk_carries := by
  intro u hu
  rw [set_splicepoint_for]
  apply spliceWalk_marks
  rw [ancestorsNames_updateV m n (addSplice d) (addSplice_parent d)]
  exact hu

theorem foldl_splice_length (calls : List (String × String)) (m : VMap) :
    (calls.foldl (fun m2 c => set_splicepoint_for m2 c.1 c.2) m).length = m.length := by
  induction calls generalizing m with
  | nil => rfl
  | cons c rest ih => rw [List.foldl_cons, ih, set_splicepoint_length]

theorem foldl_splice_chains (calls : List (String × String)) (m : VMap) (fuel : ℕ)
    (stop : Finset String) (cur : Option String) :
    ancestorsNames (calls.foldl (fun m2 c => set_splicepoint_for m2 c.1 c.2) m) fuel stop cur =
      ancestorsNames m fuel stop cur := by
  induction calls generalizing m with
  | nil => rfl
  | cons c rest ih => rw [List.foldl_cons, ih, ancestorsNames_set_splicepoint]

theorem foldl_splice_mono (calls : List (String × String)) (m : VMap) (x : String) :
    ∀ v, lookupA m x = some v →
      ∃ v2, lookupA (calls.foldl (fun m2 c => set_splicepoint_for m2 c.1 c.2) m) x = some v2 ∧
        v.trunk_carries ⊆ v2.trunk_carries := by
  induction calls generalizing m with
  | nil => exact fun v hv => ⟨v, hv, Finset.Subset.refl _⟩
  | cons c rest ih =>
    intro v hv
    rcases (set_splicepoint_lookup m c.1 c.2 x).1 v hv with ⟨v1, hv1, _, hsub, _⟩
    rcases ih (set_splicepoint_for m c.1 c.2) v1 hv1 with ⟨v2, hv2, hsub2⟩
    exact ⟨v2, hv2, Finset.Subset.trans hsub hsub2⟩

theorem foldl_splice_marks (calls : List (String × String)) (m : VMap) :
    ∀ c ∈ calls, ∀ u ∈ ancestorsNames m (m.length + 1) ∅ (some c.1),
      ∃ v2, lookupA (calls.foldl (fun m2 c2 => set_splicepoint_for m2 c2.1 c2.2) m) u = some v2 ∧
        c.2 ∈ v2.trunk_carries := by
  induction calls generalizing m with
  | nil => intro c hc; cases hc
  | cons c0 rest ih =>
    intro c hc u hu
    rw [List.foldl_cons]
    rcases List.mem_cons.1 hc with rfl | hmem
    · rcases set_splicepoint_marks m c.1 c.2 u hu with ⟨v1, hv1, hd⟩
      rcases foldl_splice_mono rest (set_splicepoint_for m c.1 c.2) u v1 hv1 with ⟨v2, hv2, hsub⟩
      exact ⟨v2, hv2, hsub hd⟩
    · apply ih (set_splicepoint_for m c0.1 c0.2) c hmem u
      rw [set_splicepoint_length, ancestorsNames_set_splicepoint]
      exact hu

theorem foldl_splice_superset (calls : List (String × String)) (m : VMap) (root : String)
    (hreach : ∀ c ∈ calls, root ∈ ancestorsNames m (m.length + 1) ∅ (some c.1))
    (rv : Vault) (hroot : lookupA m root = some rv)
    (hinv : ∀ x v, lookupA m x = some v → v.trunk_carries ⊆ rv.trunk_carries) :
    ∃ rv2, lookupA (calls.foldl (fun m2 c => set_splicepoint_for m2 c.1 c.2) m) root = some rv2 ∧
      ∀ x v, lookupA (calls.foldl (fun m2 c => set_splicepoint_for m2 c.1 c.2) m) x = some v →
        v.trunk_carries ⊆ rv2.trunk_carries := by
  induction calls generalizing m rv with
  | nil => exact ⟨rv, hroot, hinv⟩
  | cons c rest ih =>
    rw [List.foldl_cons]
    have hm1 := set_splicepoint_lookup m c.1 c.2 root
    rcases hm1.1 rv hroot with ⟨rv1, hrv1, _, hsub, hbound⟩
    have hmark : c.2 ∈ rv1.trunk_carries := by
      rcases set_splicepoint_marks m c.1 c.2 root (hreach c (List.mem_cons_self c rest))
        with ⟨v2, hv2, hd⟩
      rw [hrv1] at hv2
      cases hv2
      exact hd
    apply ih (set_splicepoint_for m c.1 c.2) ?_ rv1 hrv1
    · intro x v1 hv1
      cases hml : lookupA m x with
      | none =>
        rw [(set_splicepoint_lookup m c.1 c.2 x).2 hml] at hv1
        exact Option.noConfusion hv1
      | some v =>
        rcases (set_splicepoint_lookup m c.1 c.2 x).1 v hml with ⟨v2, hv2, _, _, hb⟩
        rw [hv2] at hv1
        cases hv1
        intro a ha
        rcases Finset.mem_insert.1 (hb ha) with rfl | ha2
        · exact hmark
        · exact hsub (hinv x v hml ha2)
    · intro c2 hc2
      rw [set_splicepoint_length, ancestorsNames_set_splicepoint]
      exact hreach c2 (List.mem_cons_of_mem c hc2)

theorem headEndScan_ok_mem (m : List (String × Vault)) :
    ∀ (acc : Option String) (k : String),
      headEndScan m acc = .ok (some k) → acc = some k ∨ ∃ v, (k, v) ∈ m := by
  induction m with
  | nil =>
    intro acc k h
    simp only [headEndScan] at h
    cases h
    exact Or.inl rfl
  | cons kv rest ih =>
    intro acc k h
    obtain ⟨k2, v2⟩ := kv
    simp only [headEndScan] at h
    by_cases hp : v2.parent.isNone
    · rw [if_pos hp] at h
      cases acc with
      | some a => exact Except.noConfusion h
      | none =>
        rcases ih (some k2) k h with heq | ⟨v, hv⟩
        · cases heq
          exact Or.inr ⟨v2, List.mem_cons_self _ _⟩
        · exact Or.inr ⟨v, List.mem_cons_of_mem _ hv⟩
    · rw [if_neg hp] at h
      rcases ih acc k h with heq | ⟨v, hv⟩
      · exact Or.inl heq
      · exact Or.inr ⟨v, List.mem_cons_of_mem _ hv⟩

theorem get_head_end_root_mem (m : VMap) (root : String)
    (h : get_head_end m = .ok root) : ∃ v, (root, v) ∈ m := by
  rw [get_head_end] at h
  cases hs : headEndScan m none with
  | error e => rw [hs] at h; exact Except.noConfusion h
  | ok acc =>
    rw [hs] at h
    cases acc with
    | none => exact Except.noConfusion h
    | some k =>
      injection h with hk
      subst hk
      rcases headEndScan_ok_mem m none k hs with heq | hv
      · exact Option.noConfusion heq
      · exact hv

/-- C9: in a vault map with a single head end `root` (as computed by
`get_head_end`), where every vault's parent chain reaches `root` and all
`trunk_carries` start empty, any sequence of `set_splicepoint_for` calls on
existing vaults leaves every added drop id in the `trunk_carries` of the
target vault and of every ancestor up to the root, and the head end's
`trunk_carries` is a superset of every vault's `trunk_carries`. -/
theorem c9_trunk_carries_superset (m0 : VMap) (root : String)
    (calls : List (String × String))
    (hhead : get_head_end m0 = .ok root)
    (hreach : ∀ kv ∈ m0, root ∈ ancestorsNames m0 (m0.length + 1) ∅ (some kv.1))
    (hempty : ∀ kv ∈ m0, kv.2.trunk_carries = ∅)
    (hcalls : ∀ c ∈ calls, (lookupA m0 c.1).isSome = true) :
    (∀ c ∈ calls, ∀ u ∈ ancestorsNames m0 (m0.length + 1) ∅ (some c.1),
      ∃ v2, lookupA (calls.foldl (fun m2 c2 => set_splicepoint_for m2 c2.1 c2.2) m0) u =
          some v2 ∧ c.2 ∈ v2.trunk_carries) ∧
    (∃ rv, lookupA (calls.foldl (fun m2 c2 => set_splicepoint_for m2 c2.1 c2.2) m0) root =
        some rv ∧
      ∀ x v, lookupA (calls.foldl (fun m2 c2 => set_splicepoint_for m2 c2.1 c2.2) m0) x =
          some v → v.trunk_carries ⊆ rv.trunk_carries) := by
  constructor
  · exact foldl_splice_marks calls m0
  · rcases get_head_end_root_mem m0 root hhead with ⟨v0, hv0⟩
    rcases lookupA_isSome_of_mem m0 root v0 hv0 with ⟨rv, hrv⟩
    apply foldl_splice_superset calls m0 root ?_ rv hrv ?_
    · intro c hc
      rcases Option.isSome_iff_exists.1 (hcalls c hc) with ⟨v1, hv1⟩
      exact hreach (c.1, v1) (lookupA_mem m0 c.1 v1 hv1)
    · intro x v hxv
      have he := hempty (x, v) (lookupA_mem m0 x v hxv)
      simp only at he
      rw [he]
      exact Finset.empty_subset _

/-- Concrete head-end vault name used by the witnesses. -/
def c9nR : String := "R"

/-- Concrete child vault name used by the witnesses. -/
def c9nC : String := "C"

/-- Concrete drop id used by the witnesses. -/
def c9drop : String := "d1"

/-- Concrete head-end vault. -/
def c9vR : Vault :=
  { name := c9nR, parent := none, name_to_child := [c9nC], path_to_parent := none,
    microducts := 0, splices := ∅, trunk_carries := ∅, duct_carries := ∅ }

/-- Concrete child vault parented to the head end. -/
def c9vC : Vault :=
  { name := c9nC, parent := some c9nR, name_to_child := [], path_to_parent := some [],
    microducts := 0, splices := ∅, trunk_carries := ∅, duct_carries := ∅ }

/-- Concrete two-vault tree. -/
def c9m : VMap := [(c9nR, c9vR), (c9nC, c9vC)]

/-- Concrete splice-point call sequence. -/
def c9calls : List (String × String) := [(c9nC, c9drop)]

theorem c9_trunk_carries_superset_witness :
    get_head_end c9m = .ok c9nR ∧
    (∀ kv ∈ c9m, c9nR ∈ ancestorsNames c9m (c9m.length + 1) ∅ (some kv.1)) ∧
    (∀ kv ∈ c9m, kv.2.trunk_carries = ∅) ∧
    (∀ c ∈ c9calls, (lookupA c9m c.1).isSome = true) ∧
    (∃ rv, lookupA (c9calls.foldl (fun m2 c2 => set_splicepoint_for m2 c2.1 c2.2) c9m) c9nR =
        some rv ∧
      ∀ x v, lookupA (c9calls.foldl (fun m2 c2 => set_splicepoint_for m2 c2.1 c2.2) c9m) x =
          some v → v.trunk_carries ⊆ rv.trunk_carries) :=
  ⟨by decide, by decide, by decide, by decide,
    (c9_trunk_carries_superset c9m c9nR c9calls (by decide) (by decide) (by decide)
      (by decide)).2⟩

/-- Truth of "following the parent chain from `cur` (all lookups succeeding)
reaches, within the fuel, a vault whose `path_to_parent` is unset" — the
shape every tree root has in `design.py`, since only `set_parent` ever
assigns `path_to_parent`. -/
def rootPathUnset (m : VMap) : ℕ → Option String → Bool
  | _, none => false
  | 0, some _ => false
  | fuel + 1, some n =>
    match lookupA m n with
    | none => false
    | some v => v.path_to_parent.isNone || rootPathUnset m fuel v.parent

theorem rootPathUnset_updateV (m : VMap) (n : String) (f : Vault → Vault)
    (hpar : ∀ v, (f v).parent = v.parent)
    (hpath : ∀ v, (f v).path_to_parent = v.path_to_parent) (fuel : ℕ)
    (cur : Option String) :
    rootPathUnset (updateV m n f) fuel cur = rootPathUnset m fuel cur := by
  induction fuel generalizing cur with
  | zero => cases cur <;> rfl
  | succ fuel ih =>
    cases cur with
    | none => rfl
    | some x =>
      simp only [rootPathUnset]
      rw [lookupA_updateV]
      by_cases hx : x = n
      · subst hx
        cases hm : lookupA m x with
        | none => simp
        | some v => simp [hpar v, hpath v, ih]
      · simp only [if_neg hx]
        cases hm : lookupA m x with
        | none => rfl
        | some v => simp [ih]

theorem addDuct_path (d : String) (v : Vault) :
    (addDuct d v).path_to_parent = v.path_to_parent := rfl

/-- With an empty stop set, the duct walk raises `AttributeError` whenever
the parent chain reaches a vault with `path_to_parent` unset. -/
theorem ductWalk_error_of_rootPathUnset (d : String) (fuel : ℕ) (m : VMap)
    (cur : Option String) (h : rootPathUnset m fuel cur = true) :
    ductWalk d fuel m ∅ cur = .error .attributeError := by
  induction fuel generalizing m cur with
  | zero => cases cur <;> exact Bool.noConfusion h
  | succ fuel ih =>
    cases cur with
    | none => exact Bool.noConfusion h
    | some n =>
      simp only [rootPathUnset] at h
      cases hm : lookupA m n with
      | none =>
        simp only [hm] at h
        exact Bool.noConfusion h
      | some v =>
        simp only [hm] at h
        simp only [ductWalk, Finset.not_mem_empty, if_false, hm]
        cases hp : v.path_to_parent with
        | none => rfl
        | some path =>
          simp only [hp, Option.isNone_some, Bool.false_or] at h
          have h2 : rootPathUnset (updateV m n (addDuct d)) fuel v.parent = true := by
            rw [rootPathUnset_updateV m n (addDuct d) (addDuct_parent d) (addDuct_path d)]
            exact h
          rw [ih (updateV m n (addDuct d)) v.parent h2]

/-- C8 (amended): when the intersection of the two ancestor-name sets is
empty (a disconnected forest) — and the tree data is otherwise well formed,
i.e. `bbVault`'s parent chain reaches a root whose `path_to_parent` is
unset — `add_fiber_drop` always fails, but with an `AttributeError` from
dereferencing that unset `path_to_parent` during the unfenced duct walk,
not with a typed structural-configuration (`GeofibDesignError`) check; it
never silently returns a path in that case. -/
theorem c8_add_fiber_drop_disconnected (seglen : Coord → Coord → ℚ) (fm : FiberManager)
    (demarcname : String) (alignment : List Coord) (bbvaultname splicevaultname : String)
    (c0 : Coord) (crest : List Coord)
    (hd : lookupA fm.name_to_coords demarcname = some (c0 :: crest))
    (hbb : (lookupA fm.name_to_vault bbvaultname).isSome = true)
    (hsp : (lookupA fm.name_to_vault splicevaultname).isSome = true)
    (hcommon :
      (ancestorsNames (set_splicepoint_for fm.name_to_vault splicevaultname demarcname)
          ((set_splicepoint_for fm.name_to_vault splicevaultname demarcname).length + 1) ∅
          (some bbvaultname)).toFinset ∩
        (ancestorsNames (set_splicepoint_for fm.name_to_vault splicevaultname demarcname)
          ((set_splicepoint_for fm.name_to_vault splicevaultname demarcname).length + 1) ∅
          (some splicevaultname)).toFinset = ∅)
    (hroot : rootPathUnset (set_splicepoint_for fm.name_to_vault splicevaultname demarcname)
        ((set_splicepoint_for fm.name_to_vault splicevaultname demarcname).length + 1)
        (some bbvaultname) = true) :
    add_fiber_drop seglen fm demarcname alignment bbvaultname splicevaultname =
      .error .attributeError := by
  rcases Option.isSome_iff_exists.1 hbb with ⟨bv, hbv⟩
  rcases Option.isSome_iff_exists.1 hsp with ⟨sv, hsv⟩
  have herr := ductWalk_error_of_rootPathUnset demarcname
    ((set_splicepoint_for fm.name_to_vault splicevaultname demarcname).length + 1)
    (set_splicepoint_for fm.name_to_vault splicevaultname demarcname)
    (some bbvaultname) hroot
  simp only [add_fiber_drop, hd, hbv, hsv, hcommon, herr]

/-- Concrete demarc name for the C8 inputs. -/
def c8nD : String := "D"

/-- Concrete backbone-vault name for the C8 inputs. -/
def c8nA : String := "A"

/-- Concrete splice-vault name for the C8 inputs. -/
def c8nB : String := "B"

/-- Concrete demarc coordinate. -/
def c8coordD : Coord := ⟨0, 0, []⟩

/-- Concrete parentless vault A (its own tree's root). -/
def c8vA : Vault :=
  { name := c8nA, parent := none, name_to_child := [], path_to_parent := none,
    microducts := 0, splices := ∅, trunk_carries := ∅, duct_carries := ∅ }

/-- Concrete parentless vault B (a second, disconnected root). -/
def c8vB : Vault :=
  { name := c8nB, parent := none, name_to_child := [], path_to_parent := none,
    microducts := 0, splices := ∅, trunk_carries := ∅, duct_carries := ∅ }

/-- Concrete disconnected two-root forest. -/
def c8fm : FiberManager :=
  { name_to_coords := [(c8nD, [c8coordD])], name_to_vault := [(c8nA, c8vA), (c8nB, c8vB)] }

/-- C8 counterexample: on a disconnected forest the ancestor-name
intersection is empty, and `add_fiber_drop` raises `AttributeError` (from
`None.coords` on the root's unset `path_to_parent`), which is not the
structural-configuration error class (`GeofibDesignError`) the claim
asserts. -/
theorem c8_counterexample :
    (ancestorsNames (set_splicepoint_for c8fm.name_to_vault c8nB c8nD)
        ((set_splicepoint_for c8fm.name_to_vault c8nB c8nD).length + 1) ∅
        (some c8nA)).toFinset ∩
      (ancestorsNames (set_splicepoint_for c8fm.name_to_vault c8nB c8nD)
        ((set_splicepoint_for c8fm.name_to_vault c8nB c8nD).length + 1) ∅
        (some c8nB)).toFinset = ∅ ∧
    add_fiber_drop (fun _ _ => 0) c8fm c8nD [] c8nA c8nB = .error .attributeError ∧
    DErr.attributeError ≠ DErr.geofibDesignError := by
  refine ⟨by decide, ?_, by decide⟩
  decide

theorem c8_add_fiber_drop_disconnected_witness :
    lookupA c8fm.name_to_coords c8nD = some (c8coordD :: []) ∧
    (lookupA c8fm.name_to_vault c8nA).isSome = true ∧
    (lookupA c8fm.name_to_vault c8nB).isSome = true ∧
    rootPathUnset (set_splicepoint_for c8fm.name_to_vault c8nB c8nD)
      ((set_splicepoint_for c8fm.name_to_vault c8nB c8nD).length + 1) (some c8nA) = true ∧
    add_fiber_drop (fun _ _ => 1) c8fm c8nD [] c8nA c8nB = .error .attributeError :=
  ⟨by decide, by decide, by decide, by decide,
    c8_add_fiber_drop_disconnected (fun _ _ => 1) c8fm c8nD [] c8nA c8nB c8coordD []
      (by decide) (by decide) (by decide) (by decide) (by decide)⟩

/-- Dereference a heap reference (out-of-range only occurs outside the
well-formedness invariant). -/
def heapGet (h : List Position) (r : ℕ) : Position := h.getD r ⟨0, 0⟩

/-- Reference-semantics model of a `Traverse` for the aliasing claim: the
heap holds the allocated `Position` objects and a reference is an index
into it.  `cursor` is the reference to the mutable cursor object that
`Position.displace` mutates in place; `Position.copy` allocates a fresh
object (`cogo.py` lines 33-34, 43-45, 86, 94). -/
structure HTraverse where
  heap : List Position
  points : List ℕ
  rangeazimuths : List (ℚ × ℚ)
  cursor : ℕ
  last_azimuth : Option ℚ
  basis_adjustment : ℚ
deriving DecidableEq

/-- `Traverse.begin` in the reference model: `points.append(cursor.copy())`
allocates a fresh object holding the cursor's current value. -/
def HTraverse.begin (t : HTraverse) : Except CogoErr HTraverse :=
  if t.points = [] then
    .ok { t with heap := t.heap ++ [heapGet t.heap t.cursor],
                 points := t.points ++ [t.heap.length] }
  else
    .error .parseError

/-- `Traverse.thence_to` in the reference model: `self.cursor.displace(...)`
mutates the cursor object in place (`heap.set`), and when begun
`points.append(self.cursor.copy())` allocates a fresh copy of it. -/
def HTraverse.thence_to (geo : Geo) (t : HTraverse) (range_in_feet azimuth0 : ℚ) :
    HTraverse :=
  let azimuth := azimuth0 + t.basis_adjustment
  let newpos := Position.displace geo (heapGet t.heap t.cursor) range_in_feet azimuth
  let heap1 := t.heap.set t.cursor newpos
  if t.points = [] then
    { t with heap := heap1, last_azimuth := some azimuth }
  else
    { t with heap := heap1 ++ [heapGet heap1 t.cursor],
             points := t.points ++ [heap1.length],
             rangeazimuths := t.rangeazimuths ++ [(range_in_feet, azimuth)],
             last_azimuth := some azimuth }

/-- `Traverse.thence_chord` in the reference model. -/
def HTraverse.thence_chord (geo : Geo) (t : HTraverse) (range_in_feet delta_azimuth : ℚ) :
    Except CogoErr HTraverse :=
  match t.last_azimuth with
  | none => .error .parseError
  | some last_azimuth =>
    let t2 := t.thence_to geo range_in_feet (last_azimuth + delta_azimuth / 2)
    .ok { t2 with last_azimuth := some (last_azimuth + delta_azimuth) }

/-- One instruction in the reference model. -/
def HTraverse.step (geo : Geo) (t : HTraverse) : Instr → Except CogoErr HTraverse
  | .begin => t.begin
  | .thenceTo r az => .ok (t.thence_to geo r az)
  | .thenceChord r d => t.thence_chord geo r d

/-- Heap well-formedness: the cursor reference and all recorded point
references are allocated, and no recorded point aliases the cursor object
(they were created by `copy`). -/
def HTraverse.wf (t : HTraverse) : Prop :=
  t.cursor < t.heap.length ∧ ∀ p ∈ t.points, p < t.heap.length ∧ p ≠ t.cursor

theorem heapGet_set_ne (h : List Position) (i j : ℕ) (a : Position) (hne : j ≠ i) :
    heapGet (h.set i a) j = heapGet h j := by
  simp [heapGet, List.getD_eq_getElem?_getD, List.getElem?_set_ne (fun hh => hne hh.symm)]

theorem heapGet_append_lt (h h2 : List Position) (j : ℕ) (hj : j < h.length) :
    heapGet (h ++ h2) j = heapGet h j := by
  rw [heapGet, heapGet, List.getD_eq_getElem?_getD, List.getD_eq_getElem?_getD,
    List.getElem?_append, if_pos hj]

theorem HTraverse.thence_to_spec (geo : Geo) (t : HTraverse) (r az : ℚ) (hwf : t.wf) :
    (t.thence_to geo r az).wf ∧
    (∃ suffix, (t.thence_to geo r az).points = t.points ++ suffix) ∧
    ∀ p ∈ t.points, heapGet (t.thence_to geo r az).heap p = heapGet t.heap p := by
  obtain ⟨hcur, hpts⟩ := hwf
  by_cases hemp : t.points = []
  · simp only [HTraverse.thence_to, if_pos hemp]
    refine ⟨⟨?_, ?_⟩, ⟨[], by simp⟩, ?_⟩
    · simpa [List.length_set] using hcur
    · intro p hp
      rw [hemp] at hp
      cases hp
    · intro p hp
      rw [hemp] at hp
      cases hp
  · simp only [HTraverse.thence_to, if_neg hemp]
    refine ⟨⟨?_, ?_⟩, ⟨_, rfl⟩, ?_⟩
    · simp only [List.length_append, List.length_set, List.length_cons, List.length_nil]
      omega
    · intro p hp
      rcases List.mem_append.1 hp with hp1 | hp2
      · rcases hpts p hp1 with ⟨hlt, hne⟩
        constructor
        · simp only [List.length_append, List.length_set, List.length_cons, List.length_nil]
          omega
        · exact hne
      · have hp3 : p = (t.heap.set t.cursor
            (Position.displace geo (heapGet t.heap t.cursor) r
              (az + t.basis_adjustment))).length := by
          cases List.mem_singleton.1 hp2
          rfl
        constructor
        · rw [hp3]
          simp only [List.length_append, List.length_set, List.length_cons, List.length_nil]
          omega
        · rw [hp3]
          simp only [List.length_set]
          omega
    · intro p hp
      rcases hpts p hp with ⟨hlt, hne⟩
      rw [heapGet_append_lt _ _ p (by simpa [List.length_set] using hlt)]
      exact heapGet_set_ne t.heap t.cursor p _ hne

/-- C10: each instruction executed on a well-formed reference-model
traverse preserves well-formedness, only ever appends to `points`, and
leaves the latitude/longitude values of every previously recorded point
object unchanged — recorded points are `copy`-allocated objects distinct
from the mutable cursor, so displacing the cursor does not modify them. -/
theorem c10_recorded_points_unchanged (geo : Geo) (t t2 : HTraverse) (i : Instr)
    (hwf : t.wf) (h : t.step geo i = .ok t2) :
    t2.wf ∧ (∃ suffix, t2.points = t.points ++ suffix) ∧
    ∀ p ∈ t.points, heapGet t2.heap p = heapGet t.heap p := by
  cases i with
  | begin =>
    simp only [HTraverse.step, HTraverse.begin] at h
    split at h
    · rename_i hemp
      cases h
      obtain ⟨hcur, hpts⟩ := hwf
      refine ⟨⟨?_, ?_⟩, ⟨_, rfl⟩, ?_⟩
      · simp only [List.length_append, List.length_cons, List.length_nil]
        omega
      · intro p hp
        rcases List.mem_append.1 hp with hp1 | hp2
        · rcases hpts p hp1 with ⟨hlt, hne⟩
          refine ⟨?_, hne⟩
          simp only [List.length_append, List.length_cons, List.length_nil]
          omega
        · cases List.mem_singleton.1 hp2
          constructor
          · simp only [List.length_append, List.length_cons, List.length_nil]
            omega
          · show t.heap.length ≠ t.cursor
            omega
      · intro p hp
        exact heapGet_append_lt _ _ p (hpts p hp).1
    · exact Except.noConfusion h
  | thenceTo r az =>
    simp only [HTraverse.step] at h
    cases h
    exact HTraverse.thence_to_spec geo t r az hwf
  | thenceChord r d =>
    simp only [HTraverse.step, HTraverse.thence_chord] at h
    cases hla : t.last_azimuth with
    | none =>
      rw [hla] at h
      exact Except.noConfusion h
    | some la =>
      rw [hla] at h
      cases h
      obtain ⟨h1, h2, h3⟩ := HTraverse.thence_to_spec geo t r (la + d / 2) hwf
      exact ⟨h1, h2, h3⟩

/-- Concrete reference-model traverse: one recorded point (reference 1) and
the cursor at reference 0. -/
def c10t : HTraverse :=
  { heap := [⟨0, 0⟩, ⟨5, 5⟩], points := [1], rangeazimuths := [], cursor := 0,
    last_azimuth := none, basis_adjustment := 0 }

/-- The state after `thence_to(10, 20)` under `geoNorth`: the cursor object
was mutated in place and a fresh copy (reference 2) was recorded. -/
def c10t2 : HTraverse :=
  { heap := [⟨1, 0⟩, ⟨5, 5⟩, ⟨1, 0⟩], points := [1, 2], rangeazimuths := [(10, 20)],
    cursor := 0, last_azimuth := some 20, basis_adjustment := 0 }

theorem c10_recorded_points_unchanged_witness :
    c10t.wf ∧ HTraverse.step geoNorth c10t (.thenceTo 10 20) = .ok c10t2 ∧
    (c10t2.wf ∧ (∃ suffix, c10t2.points = c10t.points ++ suffix) ∧
      ∀ p ∈ c10t.points, heapGet c10t2.heap p = heapGet c10t.heap p) := by
  have hwf : c10t.wf := by
    constructor
    · decide
    · decide
  have hstep : HTraverse.step geoNorth c10t (.thenceTo 10 20) = .ok c10t2 := by
    norm_num [HTraverse.step, HTraverse.thence_to, Position.displace, heapGet, geoNorth,
      c10t, c10t2, List.getD_cons_zero, List.set_cons_zero]
  exact ⟨hwf, hstep, c10_recorded_points_unchanged geoNorth c10t c10t2 _ hwf hstep⟩
